import Mathlib

/-!
Shallow embedding of the dx-scanner practice evaluation engine
(`src/scanner/Scanner.ts`) and of the JavaScript gitignore practice
(`src/practices/JavaScript/JsGitignoreCorrectlySetPractice.ts`),
with theorems settling the specification claims about them.

The helper functions of `ScannerUtils` (`filterPractices`, `sortPractices`,
`isFulfilled`) are not part of the sources; they are modelled from the
specification text, as marked on each definition.
-/

namespace DxScanner

/-- `PracticeEvaluationResult` from `src/model`: tri-state evaluation outcome. -/
inductive PracticeEvaluationResult where
  | practicing
  | notPracticing
  | unknown
deriving DecidableEq, Repr

/-- `PracticeImpact` from `src/model`: severity enum (spec §3: low/medium/high). -/
inductive PracticeImpact where
  | low
  | medium
  | high
deriving DecidableEq, Repr

/-- Practice metadata as registered via the `DxPractice` decorator:
id, name, impact, `reportOnlyOnce`, and the dependency constraint sets
`dependsOn.practicing` / `dependsOn.notPracticing`. -/
structure PracticeMetadata where
  id : String
  name : String
  impact : PracticeImpact
  reportOnlyOnce : Bool
  requiresPracticing : List String
  requiresNotPracticing : List String
deriving DecidableEq, Repr

/-- A detected project component (language/path etc. abstracted to a name). -/
structure Component where
  name : String
deriving DecidableEq, Repr

/-- A runtime practice: metadata plus its applicability and evaluation
behaviour on a given component.  `evaluateOn c` is the outcome of
`practice.evaluate(context)` for component `c`: `.ok r` when the plugin
returns result `r`, `.error e` when the plugin call throws `e`. -/
structure Practice where
  metadata : PracticeMetadata
  isApplicable : Component → Bool
  evaluateOn : Component → Except String PracticeEvaluationResult

/-- Override Store answer for one practice id (spec §6:
`getOverride -> {enabled: bool, impactOverride: optional<enum>}`);
`impact` is the optional severity override read by `Scanner.report`. -/
structure PracticeConfig where
  enabled : Bool
  impact : Option PracticeImpact

/-- A project component together with its per-component config provider
(`componentContext.configProvider.getOverriddenPractice`). -/
structure ComponentWithContext where
  component : Component
  config : String → PracticeConfig

/-- The dependency ids a practice references
(`requiresPracticing ++ requiresNotPracticing`). -/
def Practice.deps (p : Practice) : List String :=
  p.metadata.requiresPracticing ++ p.metadata.requiresNotPracticing

/-! ## JsGitignoreCorrectlySetPractice -/

/-- One step of splitting on the JS regex `/\r?\n/`: every chunk that was
followed by a `\n` separator loses one trailing `\r`; the final chunk is
kept verbatim. -/
def stripCrAux : List String → List String
  | [] => []
  | [x] => [x]
  | x :: xs => (if x.endsWith "\r" then x.dropRight 1 else x) :: stripCrAux xs

/-- `string.split(/\r?\n/)`: split on newlines, where a preceding `\r`
belongs to the separator. -/
def splitCrlf (s : String) : List String :=
  stripCrAux (s.splitOn "\n")

/-- JS `/lit/.test(value)` for a literal pattern: substring containment. -/
def containsSub (hay needle : String) : Bool :=
  (List.range (hay.length + 1)).any fun i =>
    ((hay.drop i).take needle.length) == needle

/-- `parseGitignore` from `JsGitignoreCorrectlySetPractice.evaluate`:
split into lines, keep lines that are non-blank after trimming and do not
start with `#`. -/
def parseGitignore (gitignoreFile : String) : List String :=
  (splitCrlf gitignoreFile).filter fun content =>
    content.trim != "" && !(content.startsWith "#")

/-- The decision core of `JsGitignoreCorrectlySetPractice.evaluate` on the
`.gitignore` content (the code after the file has been read). -/
def evaluateGitignoreCore (content : String) : PracticeEvaluationResult :=
  let parsedGitignore := parseGitignore content
  let packageJsonRegex := parsedGitignore.any fun v => containsSub v "package-lock.json"
  let yarnLockRegex := parsedGitignore.any fun v => containsSub v "yarn.lock"
  let nodeModulesRegex := parsedGitignore.any fun v => containsSub v "node_modules"
  let coverageRegex := parsedGitignore.any fun v => containsSub v "coverage"
  let errorLogRegex := parsedGitignore.any fun v => containsSub v ".log"
  let exactlyOneLockfile := (packageJsonRegex && !yarnLockRegex) || (!packageJsonRegex && yarnLockRegex)
  if exactlyOneLockfile && nodeModulesRegex && errorLogRegex && coverageRegex then
    PracticeEvaluationResult.practicing
  else
    PracticeEvaluationResult.notPracticing

/-- A file inspector: `readFile(path)` returns the file's content. -/
structure FileInspector where
  readFile : String → String

/-- The `root` sub-context of a practice context. -/
structure RootContext where
  fileInspector : Option FileInspector

/-- The practice context handed to `evaluate` (only the parts this
practice consults). -/
structure PracticeCtx where
  root : RootContext

/-- `JsGitignoreCorrectlySetPractice.evaluate`, instrumented with the list
of file paths read: returns `unknown` immediately when there is no file
inspector, otherwise reads `.gitignore` and decides on its content. -/
def jsGitignoreEvaluate (ctx : PracticeCtx) : PracticeEvaluationResult × List String :=
  match ctx.root.fileInspector with
  | none => (PracticeEvaluationResult.unknown, [])
  | some fi => (evaluateGitignoreCore (fi.readFile ".gitignore"), [".gitignore"])

/-- The claim's side (C10), written from its words: among the lines that
are non-blank after trimming and do not start with `#`, exactly one of the
patterns `package-lock.json` / `yarn.lock` is matched (not both, not
neither), and `node_modules`, `coverage` and `.log` are each matched by
some line. -/
def gitignoreSpecOk (content : String) : Bool :=
  let lines := (splitCrlf content).filter fun l => l.trim != "" && !(l.startsWith "#")
  let pkg := lines.any fun v => containsSub v "package-lock.json"
  let yarn := lines.any fun v => containsSub v "yarn.lock"
  (xor pkg yarn)
    && (lines.any fun v => containsSub v "node_modules")
    && (lines.any fun v => containsSub v "coverage")
    && (lines.any fun v => containsSub v ".log")

/-! ## Scanner -/

/-- One entry of a component's accumulated result list
(`PracticeWithContext` in `Scanner.ts`): the practice, its evaluation and
the enabled flag, for one component. -/
structure PracticeWithContext where
  practice : Practice
  componentContext : ComponentWithContext
  evaluation : PracticeEvaluationResult
  isOn : Bool

/-- Modelled from the spec: `ScannerUtils.filterPractices` is not in the
sources.  Per spec §4.2 step 1 and P4, practices disabled via override are
set aside (`practicesOff`) regardless of applicability; the remaining
practices that answered `isApplicable = true` form the applicable set the
pipeline evaluates (`customApplicablePractices`), per spec §3's invariant
that every evaluated record's practice is applicable. -/
structure FilteredPractices where
  customApplicablePractices : List Practice
  practicesOff : List Practice

/-- Modelled from the spec: the split performed by
`ScannerUtils.filterPractices` (see `FilteredPractices`). -/
def filterPractices (cwc : ComponentWithContext) (practices : List Practice) :
    FilteredPractices where
  customApplicablePractices :=
    practices.filter fun p =>
      p.isApplicable cwc.component && (cwc.config p.metadata.id).enabled
  practicesOff :=
    practices.filter fun p => !(cwc.config p.metadata.id).enabled

/-- Modelled from the spec: a practice is ready when none of the ids it
references (`requiresPracticing`/`requiresNotPracticing`) belongs to a
practice still awaiting ordering; references to ids outside the applicable
set are ignored (spec §4.1). -/
def readyIn (p : Practice) (remaining : List Practice) : Bool :=
  p.deps.all fun d => !(remaining.any fun q => q.metadata.id == d)

/-- Modelled from the spec: scan for the first ready practice (ties broken
by registration order, spec §4.1), returning it and the rest in order. -/
def pickReady (remaining : List Practice) :
    List Practice → List Practice → Option (Practice × List Practice)
  | _, [] => none
  | acc, p :: rest =>
    if readyIn p remaining then some (p, acc.reverse ++ rest)
    else pickReady remaining (p :: acc) rest

/-- Modelled from the spec: fuelled topological-sort loop; when no ready
practice remains but the set is non-empty, fail with the ids that could
not be ordered (spec §4.1 cycle policy). -/
def sortPracticesAux : Nat → List Practice → Except (List String) (List Practice)
  | 0, remaining =>
    if remaining.isEmpty then Except.ok []
    else Except.error (remaining.map fun p => p.metadata.id)
  | Nat.succ n, remaining =>
    if remaining.isEmpty then Except.ok []
    else
      match pickReady remaining [] remaining with
      | none => Except.error (remaining.map fun p => p.metadata.id)
      | some (p, rest) =>
        match sortPracticesAux n rest with
        | Except.ok sorted => Except.ok (p :: sorted)
        | Except.error e => Except.error e

/-- Modelled from the spec: `ScannerUtils.sortPractices` — topological
ordering of the applicable practices, or a structured error naming the
unorderable ids on a cycle. -/
def sortPractices (ps : List Practice) : Except (List String) (List Practice) :=
  sortPracticesAux ps.length ps

/-- Modelled from the spec: `ScannerUtils.isFulfilled` — every id in
`requiresPracticing` must already have a record evaluated `practicing`
among the records produced earlier for this component, and every id in
`requiresNotPracticing` a record evaluated `notPracticing` (spec §4.2
step 2). -/
def isFulfilled (p : Practice) (acc : List PracticeWithContext) : Bool :=
  (p.metadata.requiresPracticing.all fun d =>
      acc.any fun r =>
        r.practice.metadata.id == d
          && r.evaluation == PracticeEvaluationResult.practicing)
    && (p.metadata.requiresNotPracticing.all fun d =>
      acc.any fun r =>
        r.practice.metadata.id == d
          && r.evaluation == PracticeEvaluationResult.notPracticing)

/-- The mutable state of `detectPracticesForComponent`'s evaluation loop,
instrumented: the accumulated records, the ids whose `evaluate` was
invoked, and the names logged by the `catch` branch. -/
structure LoopState where
  records : List PracticeWithContext
  invoked : List String
  failLog : List String

/-- One iteration of the `for (const practice of orderedApplicablePractices)`
loop in `Scanner.detectPracticesForComponent`: skip when unfulfilled,
otherwise invoke `evaluate`, mapping a thrown error to `unknown` and
logging the practice's name, and push the record with `isOn = true`. -/
def evalStep (cwc : ComponentWithContext) (st : LoopState) (p : Practice) : LoopState :=
  if isFulfilled p st.records then
    match p.evaluateOn cwc.component with
    | Except.ok r =>
      { records := st.records ++ [⟨p, cwc, r, true⟩]
        invoked := st.invoked ++ [p.metadata.id]
        failLog := st.failLog }
    | Except.error _ =>
      { records := st.records ++ [⟨p, cwc, PracticeEvaluationResult.unknown, true⟩]
        invoked := st.invoked ++ [p.metadata.id]
        failLog := st.failLog ++ [p.metadata.name] }
  else st

/-- The whole evaluation loop over the resolved order. -/
def evalLoop (cwc : ComponentWithContext) (ps : List Practice) (st : LoopState) : LoopState :=
  ps.foldl (evalStep cwc) st

/-- The record pushed for each member of `filteredPractices.practicesOff`:
`evaluation = unknown`, `isOn = false`. -/
def offRecord (cwc : ComponentWithContext) (p : Practice) : PracticeWithContext :=
  ⟨p, cwc, PracticeEvaluationResult.unknown, false⟩

/-- `Scanner.detectPracticesForComponent`: filter, sort (propagating a
resolver error), run the evaluation loop, then append one turned-off
record per disabled practice. -/
def detectPracticesForComponent (practices : List Practice)
    (cwc : ComponentWithContext) : Except (List String) LoopState :=
  let filtered := filterPractices cwc practices
  match sortPractices filtered.customApplicablePractices with
  | Except.error e => Except.error e
  | Except.ok orderedApplicablePractices =>
    let st := evalLoop cwc orderedApplicablePractices ⟨[], [], []⟩
    Except.ok
      { records := st.records ++ filtered.practicesOff.map (offRecord cwc)
        invoked := st.invoked
        failLog := st.failLog }

/-- `Scanner.detectPractices`: evaluate every component and flatten the
records in component order; `Promise.all` semantics make any component's
rejection the whole call's rejection. -/
def detectPractices (practices : List Practice) :
    List ComponentWithContext → Except (List String) (List PracticeWithContext)
  | [] => Except.ok []
  | cwc :: rest =>
    match detectPracticesForComponent practices cwc with
    | Except.error e => Except.error e
    | Except.ok st =>
      match detectPractices practices rest with
      | Except.error e => Except.error e
      | Except.ok restRecords => Except.ok (st.records ++ restRecords)

/-- One row of the data `Scanner.report` hands to the reporter. -/
structure ReportedPractice where
  component : Component
  practice : PracticeMetadata
  evaluation : PracticeEvaluationResult
  impact : PracticeImpact
  isOn : Bool
deriving DecidableEq, Repr

/-- `Scanner.report`'s mapping: `relevantPractices` is the whole input
(`const relevantPractices = practicesWithContext`), and each entry carries
the overridden impact when the config provider defines one, else the
declared impact. -/
def reportInput (practicesWithContext : List PracticeWithContext) : List ReportedPractice :=
  practicesWithContext.map fun p =>
    let config := p.componentContext.config p.practice.metadata.id
    { component := p.componentContext.component
      practice := p.practice.metadata
      evaluation := p.evaluation
      impact :=
        match config.impact with
        | some overridenImpact => overridenImpact
        | none => p.practice.metadata.impact
      isOn := p.isOn }

/-! ## Concrete fixtures used by witnesses and counterexamples -/

/-- Metadata fixture: high impact, `reportOnlyOnce = true`. -/
def mkMeta (i n : String) (reqP reqNP : List String) : PracticeMetadata :=
  ⟨i, n, PracticeImpact.high, true, reqP, reqNP⟩

/-- Override store fixture: everything enabled, no impact override. -/
def allOnConfig : String → PracticeConfig := fun _ => ⟨true, none⟩

def cwcA : ComponentWithContext := ⟨⟨"A"⟩, allOnConfig⟩

def cwcB : ComponentWithContext := ⟨⟨"B"⟩, allOnConfig⟩

/-- A `reportOnlyOnce` practice applicable everywhere, always `notPracticing`. -/
def practiceY : Practice :=
  ⟨mkMeta "Y" "Y name" [] [], fun _ => true,
    fun _ => Except.ok PracticeEvaluationResult.notPracticing⟩

/-- Half of a dependency cycle, applicable only to component `Bad`. -/
def practiceCycP : Practice :=
  ⟨mkMeta "P" "P name" ["Q"] [], fun c => c.name == "Bad",
    fun _ => Except.ok PracticeEvaluationResult.practicing⟩

/-- Other half of the dependency cycle, applicable only to component `Bad`. -/
def practiceCycQ : Practice :=
  ⟨mkMeta "Q" "Q name" ["P"] [], fun c => c.name == "Bad",
    fun _ => Except.ok PracticeEvaluationResult.practicing⟩

/-- An unconstrained practice applicable everywhere. -/
def practiceG : Practice :=
  ⟨mkMeta "G" "G name" [] [], fun _ => true,
    fun _ => Except.ok PracticeEvaluationResult.practicing⟩

def catalogCyc : List Practice := [practiceCycP, practiceCycQ, practiceG]

def cwcBad : ComponentWithContext := ⟨⟨"Bad"⟩, allOnConfig⟩

def cwcGood : ComponentWithContext := ⟨⟨"Good"⟩, allOnConfig⟩

/-- A practice that always throws. -/
def practiceT : Practice :=
  ⟨mkMeta "T" "T name" [] [], fun _ => true, fun _ => Except.error "boom"⟩

/-- A dependency-free practice, always `practicing`. -/
def practiceS : Practice :=
  ⟨mkMeta "S" "S name" [] [], fun _ => true,
    fun _ => Except.ok PracticeEvaluationResult.practicing⟩

def catalogTS : List Practice := [practiceT, practiceS]

/-- Outcome of `catalogTS` on component `A`. -/
def stTS : LoopState :=
  ⟨[⟨practiceT, cwcA, PracticeEvaluationResult.unknown, true⟩,
    ⟨practiceS, cwcA, PracticeEvaluationResult.practicing, true⟩],
   ["T", "S"], ["T name"]⟩

/-- `lockfile-present` style practice evaluating `notPracticing`. -/
def practiceL : Practice :=
  ⟨mkMeta "L" "L name" [] [], fun _ => true,
    fun _ => Except.ok PracticeEvaluationResult.notPracticing⟩

/-- A practice requiring `L` to be `practicing`. -/
def practiceE : Practice :=
  ⟨mkMeta "E" "E name" ["L"] [], fun _ => true,
    fun _ => Except.ok PracticeEvaluationResult.practicing⟩

def catalogLE : List Practice := [practiceL, practiceE]

/-- Outcome of `catalogLE` on component `A`: `E` is skipped. -/
def stLE : LoopState :=
  ⟨[⟨practiceL, cwcA, PracticeEvaluationResult.notPracticing, true⟩], ["L"], []⟩

/-- A disabled, inapplicable practice with an unmet dependency. -/
def practiceD : Practice :=
  ⟨mkMeta "D" "D name" ["X"] [], fun _ => false,
    fun _ => Except.ok PracticeEvaluationResult.practicing⟩

/-- Override store disabling exactly practice id `D`. -/
def offDConfig : String → PracticeConfig := fun i => ⟨!(i == "D"), none⟩

def cwcOffD : ComponentWithContext := ⟨⟨"A"⟩, offDConfig⟩

def catalogDG : List Practice := [practiceD, practiceG]

/-- Outcome of `catalogDG` on the component disabling `D`. -/
def stDG : LoopState :=
  ⟨[⟨practiceG, cwcOffD, PracticeEvaluationResult.practicing, true⟩,
    ⟨practiceD, cwcOffD, PracticeEvaluationResult.unknown, false⟩],
   ["G"], []⟩

/-- A practice referencing `DQ`, used toggled off. -/
def practiceDepP : Practice :=
  ⟨mkMeta "DP" "DP name" ["DQ"] [], fun _ => true,
    fun _ => Except.ok PracticeEvaluationResult.practicing⟩

/-- The referenced practice, also toggled off. -/
def practiceDepQ : Practice :=
  ⟨mkMeta "DQ" "DQ name" [] [], fun _ => true,
    fun _ => Except.ok PracticeEvaluationResult.practicing⟩

/-- Override store disabling everything. -/
def allOffConfig : String → PracticeConfig := fun _ => ⟨false, none⟩

def cwcAllOff : ComponentWithContext := ⟨⟨"A"⟩, allOffConfig⟩

def catalogDep : List Practice := [practiceDepP, practiceDepQ]

/-- A dependency-free practice evaluating `practicing`. -/
def practiceLP : Practice :=
  ⟨mkMeta "LP" "LP name" [] [], fun _ => true,
    fun _ => Except.ok PracticeEvaluationResult.practicing⟩

/-- A practice requiring `LP` practicing, itself `practicing`. -/
def practiceE2 : Practice :=
  ⟨mkMeta "E2" "E2 name" ["LP"] [], fun _ => true,
    fun _ => Except.ok PracticeEvaluationResult.practicing⟩

def catalogLPE : List Practice := [practiceLP, practiceE2]

/-- Outcome of `catalogLPE` on component `A`: both evaluated, in order. -/
def stLPE : LoopState :=
  ⟨[⟨practiceLP, cwcA, PracticeEvaluationResult.practicing, true⟩,
    ⟨practiceE2, cwcA, PracticeEvaluationResult.practicing, true⟩],
   ["LP", "E2"], []⟩

/-! ## Helper lemmas about the evaluation loop -/

theorem evalLoop_nil (cwc : ComponentWithContext) (st : LoopState) :
    evalLoop cwc [] st = st := rfl

theorem evalLoop_cons (cwc : ComponentWithContext) (p : Practice)
    (ps : List Practice) (st : LoopState) :
    evalLoop cwc (p :: ps) st = evalLoop cwc ps (evalStep cwc st p) := rfl

theorem evalLoop_append (cwc : ComponentWithContext) (xs ys : List Practice)
    (st : LoopState) :
    evalLoop cwc (xs ++ ys) st = evalLoop cwc ys (evalLoop cwc xs st) :=
  List.foldl_append _ _ _ _

theorem evalStep_skip (cwc : ComponentWithContext) (st : LoopState) (p : Practice)
    (h : isFulfilled p st.records = false) :
    evalStep cwc st p = st := by
  simp [evalStep, h]

theorem evalStep_ok (cwc : ComponentWithContext) (st : LoopState) (p : Practice)
    (r : PracticeEvaluationResult)
    (h : isFulfilled p st.records = true) (he : p.evaluateOn cwc.component = Except.ok r) :
    evalStep cwc st p =
      { records := st.records ++ [⟨p, cwc, r, true⟩]
        invoked := st.invoked ++ [p.metadata.id]
        failLog := st.failLog } := by
  simp [evalStep, h, he]

theorem evalStep_throw (cwc : ComponentWithContext) (st : LoopState) (p : Practice)
    (e : String)
    (h : isFulfilled p st.records = true) (he : p.evaluateOn cwc.component = Except.error e) :
    evalStep cwc st p =
      { records := st.records ++ [⟨p, cwc, PracticeEvaluationResult.unknown, true⟩]
        invoked := st.invoked ++ [p.metadata.id]
        failLog := st.failLog ++ [p.metadata.name] } := by
  simp [evalStep, h, he]

/-- Structure of a whole loop run: the records and invocations produced on
top of the starting state come from a subsequence of the processed
practices, are all `isOn = true` records for this component, each was
emitted only with its fulfillment check passing against the records
accumulated so far, and the failure log only grows. -/
theorem evalLoop_shape (cwc : ComponentWithContext) :
    ∀ (ps : List Practice) (st : LoopState),
      ∃ (new : List PracticeWithContext) (fl : List String),
        (evalLoop cwc ps st).records = st.records ++ new
        ∧ (evalLoop cwc ps st).invoked
            = st.invoked ++ new.map (fun r => r.practice.metadata.id)
        ∧ (evalLoop cwc ps st).failLog = st.failLog ++ fl
        ∧ (new.map fun r => r.practice).Sublist ps
        ∧ (∀ r ∈ new, r.isOn = true ∧ r.componentContext = cwc
            ∧ (r.evaluation = PracticeEvaluationResult.unknown
                ∨ r.practice.evaluateOn cwc.component = Except.ok r.evaluation))
        ∧ (∀ n1 r n2, new = n1 ++ r :: n2 →
            isFulfilled r.practice (st.records ++ n1) = true)
  | [], st => by
      refine ⟨[], [], by simp [evalLoop_nil], by simp [evalLoop_nil],
        by simp [evalLoop_nil], by simp, by simp, ?_⟩
      intro n1 r n2 h
      exact absurd h (by simp)
  | p :: rest, st => by
      rw [evalLoop_cons]
      cases hf : isFulfilled p st.records with
      | false =>
        obtain ⟨new, fl, h1, h2, h3, h4, h5, h6⟩ := evalLoop_shape cwc rest st
        rw [evalStep_skip cwc st p hf]
        exact ⟨new, fl, h1, h2, h3, h4.cons p, h5, h6⟩
      | true =>
        cases he : p.evaluateOn cwc.component with
        | ok r =>
          rw [evalStep_ok cwc st p r hf he]
          obtain ⟨new, fl, h1, h2, h3, h4, h5, h6⟩ :=
            evalLoop_shape cwc rest
              { records := st.records ++ [⟨p, cwc, r, true⟩]
                invoked := st.invoked ++ [p.metadata.id]
                failLog := st.failLog }
          refine ⟨⟨p, cwc, r, true⟩ :: new, fl, ?_, ?_, ?_, ?_, ?_, ?_⟩
          · simpa using h1
          · simpa using h2
          · simpa using h3
          · exact h4.cons₂ p
          · intro x hx
            rcases List.mem_cons.mp hx with hx | hx
            · subst hx
              exact ⟨rfl, rfl, Or.inr he⟩
            · exact h5 x hx
          · intro n1 x n2 hsplit
            cases n1 with
            | nil =>
              simp only [List.nil_append, List.cons.injEq] at hsplit
              rw [← hsplit.1]
              simpa using hf
            | cons y n1t =>
              simp only [List.cons_append, List.cons.injEq] at hsplit
              have := h6 n1t x n2 hsplit.2
              rw [← hsplit.1]
              simpa using this
        | error e =>
          rw [evalStep_throw cwc st p e hf he]
          obtain ⟨new, fl, h1, h2, h3, h4, h5, h6⟩ :=
            evalLoop_shape cwc rest
              { records := st.records ++ [⟨p, cwc, PracticeEvaluationResult.unknown, true⟩]
                invoked := st.invoked ++ [p.metadata.id]
                failLog := st.failLog ++ [p.metadata.name] }
          refine ⟨⟨p, cwc, PracticeEvaluationResult.unknown, true⟩ :: new,
            p.metadata.name :: fl, ?_, ?_, ?_, ?_, ?_, ?_⟩
          · simpa using h1
          · simpa using h2
          · simpa using h3
          · exact h4.cons₂ p
          · intro x hx
            rcases List.mem_cons.mp hx with hx | hx
            · subst hx
              exact ⟨rfl, rfl, Or.inl rfl⟩
            · exact h5 x hx
          · intro n1 x n2 hsplit
            cases n1 with
            | nil =>
              simp only [List.nil_append, List.cons.injEq] at hsplit
              rw [← hsplit.1]
              simpa using hf
            | cons y n1t =>
              simp only [List.cons_append, List.cons.injEq] at hsplit
              have := h6 n1t x n2 hsplit.2
              rw [← hsplit.1]
              simpa using this

/-! ## Helper lemmas about the resolver -/

theorem pickReady_spec (remaining : List Practice) :
    ∀ (l acc : List Practice) (p : Practice) (rest : List Practice),
      pickReady remaining acc l = some (p, rest) →
      p ∈ l ∧ readyIn p remaining = true ∧ (acc.reverse ++ l).Perm (p :: rest)
  | [], acc, p, rest => by intro h; exact absurd h (by simp [pickReady])
  | q :: l, acc, p, rest => by
      intro h
      rw [pickReady] at h
      by_cases hr : readyIn q remaining = true
      · rw [if_pos hr] at h
        obtain ⟨h1, h2⟩ := Prod.mk.injEq .. ▸ Option.some.injEq .. ▸ h
        refine ⟨by simp [← h1], by rw [← h1]; exact hr, ?_⟩
        rw [← h1, ← h2]
        exact List.perm_middle
      · rw [if_neg hr] at h
        obtain ⟨h1, h2, h3⟩ := pickReady_spec remaining l (q :: acc) p rest h
        refine ⟨List.mem_cons_of_mem q h1, h2, ?_⟩
        have : acc.reverse ++ q :: l = (q :: acc).reverse ++ l := by
          simp [List.reverse_cons, List.append_assoc]
        rw [this]
        exact h3

theorem sortPracticesAux_perm :
    ∀ (n : Nat) (remaining sorted : List Practice),
      sortPracticesAux n remaining = Except.ok sorted → remaining.Perm sorted := by
  intro n
  induction n with
  | zero =>
    intro remaining sorted h
    rw [sortPracticesAux] at h
    split at h
    · rename_i hemp
      rw [List.isEmpty_iff] at hemp
      subst hemp
      simp only [Except.ok.injEq] at h
      rw [← h]
    · exact absurd h (by simp)
  | succ n ih =>
    intro remaining sorted h
    rw [sortPracticesAux] at h
    split at h
    · rename_i hemp
      rw [List.isEmpty_iff] at hemp
      subst hemp
      simp only [Except.ok.injEq] at h
      rw [← h]
    · split at h
      · exact absurd h (by simp)
      · rename_i p rest hp
        split at h
        · rename_i sorted2 hs
          simp only [Except.ok.injEq] at h
          obtain ⟨-, -, hperm⟩ := pickReady_spec remaining remaining [] p rest hp
          simp only [List.reverse_nil, List.nil_append] at hperm
          have h2 : rest.Perm sorted2 := ih rest sorted2 hs
          rw [← h]
          exact hperm.trans (h2.cons p)
        · exact absurd h (by simp)

theorem sortPractices_perm (ps sorted : List Practice)
    (h : sortPractices ps = Except.ok sorted) : ps.Perm sorted :=
  sortPracticesAux_perm ps.length ps sorted h

/-! ## Counting helpers -/

/-- In a list of practices with pairwise distinct ids, at most one
practice carries any given id. -/
theorem countP_id_le_one (practices : List Practice) (pid : String)
    (hNodup : (practices.map fun q => q.metadata.id).Nodup) :
    (practices.countP fun q => q.metadata.id == pid) ≤ 1 := by
  have h1 : (practices.countP fun q => q.metadata.id == pid)
      = ((practices.map fun q => q.metadata.id).countP fun s => s == pid) := by
    rw [List.countP_map]
    rfl
  rw [h1]
  have := List.nodup_iff_count_le_one.mp hNodup pid
  simpa [List.count] using this

/-- If a predicate holds for at most one entry of a list, two positions
where it holds coincide. -/
theorem countP_le_one_pos {α : Type} {P : α → Bool} :
    ∀ (l : List α) (i j : Nat) (hi : i < l.length) (hj : j < l.length),
      l.countP P ≤ 1 → P (l.get ⟨i, hi⟩) = true → P (l.get ⟨j, hj⟩) = true → i = j
  | [], i, j, hi, hj, _, _, _ => absurd hi (by simp)
  | a :: l, 0, 0, _, _, _, _, _ => rfl
  | a :: l, 0, j + 1, hi, hj, hc, hPi, hPj => by
      exfalso
      have hPa : P a = true := hPi
      have hmem : l.get ⟨j, by simpa using hj⟩ ∈ l := List.get_mem l _ _
      have hpos : 0 < l.countP P := List.countP_pos_iff.mpr ⟨_, hmem, hPj⟩
      have hcc : (a :: l).countP P = l.countP P + 1 := by
        rw [List.countP_cons, hPa]
        simp
      omega
  | a :: l, i + 1, 0, hi, hj, hc, hPi, hPj => by
      exfalso
      have hPa : P a = true := hPj
      have hmem : l.get ⟨i, by simpa using hi⟩ ∈ l := List.get_mem l _ _
      have hpos : 0 < l.countP P := List.countP_pos_iff.mpr ⟨_, hmem, hPi⟩
      have hcc : (a :: l).countP P = l.countP P + 1 := by
        rw [List.countP_cons, hPa]
        simp
      omega
  | a :: l, i + 1, j + 1, hi, hj, hc, hPi, hPj => by
      have htail : l.countP P ≤ 1 := by
        rw [List.countP_cons] at hc
        omega
      have := countP_le_one_pos l i j (by simpa using hi) (by simpa using hj) htail hPi hPj
      omega

/-- C9: with no file inspector on the root context, evaluation answers
`unknown` and reads no file. -/
theorem c9_no_fileInspector_unknown (ctx : PracticeCtx)
    (h : ctx.root.fileInspector = none) :
    jsGitignoreEvaluate ctx = (PracticeEvaluationResult.unknown, []) := by
  unfold jsGitignoreEvaluate
  rw [h]

/-- Witness for C9 at a concrete inspector-less context. -/
theorem c9_no_fileInspector_unknown_witness :
    jsGitignoreEvaluate ⟨⟨none⟩⟩ = (PracticeEvaluationResult.unknown, []) :=
  c9_no_fileInspector_unknown ⟨⟨none⟩⟩ rfl

/-- C10: on any `.gitignore` content the core evaluation returns
`practicing` exactly when the claim's condition holds (exactly one
lockfile pattern, plus `node_modules`, `coverage` and `.log` all matched
among the non-blank non-comment lines), and `notPracticing` otherwise. -/
theorem c10_gitignore_core_iff_spec (content : String) :
    (evaluateGitignoreCore content = PracticeEvaluationResult.practicing
        ↔ gitignoreSpecOk content = true)
      ∧ (evaluateGitignoreCore content = PracticeEvaluationResult.notPracticing
        ↔ gitignoreSpecOk content = false) := by
  unfold evaluateGitignoreCore gitignoreSpecOk parseGitignore
  set lines := (splitCrlf content).filter fun l => l.trim != "" && !(l.startsWith "#") with hlines
  cases hp : lines.any fun v => containsSub v "package-lock.json" <;>
    cases hy : lines.any fun v => containsSub v "yarn.lock" <;>
      cases hn : lines.any fun v => containsSub v "node_modules" <;>
        cases hc : lines.any fun v => containsSub v "coverage" <;>
          cases hl : lines.any fun v => containsSub v ".log" <;>
            simp [hp, hy, hn, hc, hl]

/-- C1 counterexample: a `reportOnlyOnce = true` practice evaluated
`notPracticing` on two components yields TWO entries in the data handed to
the reporter — the later duplicate is not dropped, contradicting the
claimed post-pass deduplication. -/
theorem c1_counterexample :
    Except.map reportInput (detectPractices [practiceY] [cwcA, cwcB])
      = Except.ok
          [⟨⟨"A"⟩, mkMeta "Y" "Y name" [] [], PracticeEvaluationResult.notPracticing,
             PracticeImpact.high, true⟩,
           ⟨⟨"B"⟩, mkMeta "Y" "Y name" [] [], PracticeEvaluationResult.notPracticing,
             PracticeImpact.high, true⟩]
      ∧ (mkMeta "Y" "Y name" [] []).reportOnlyOnce = true :=
  ⟨rfl, rfl⟩

/-- C1 (amended): `Scanner.report` performs no `reportOnlyOnce`
deduplication — it hands every accumulated record to the reporter,
preserving order, count and each record's practice, component, evaluation
and enabled flag. -/
theorem c1_amended_no_dedup (ps : List PracticeWithContext) (i : Nat)
    (h : i < ps.length) (h2 : i < (reportInput ps).length) :
    (reportInput ps).length = ps.length
    ∧ ((reportInput ps).get ⟨i, h2⟩).practice = (ps.get ⟨i, h⟩).practice.metadata
    ∧ ((reportInput ps).get ⟨i, h2⟩).component
        = (ps.get ⟨i, h⟩).componentContext.component
    ∧ ((reportInput ps).get ⟨i, h2⟩).evaluation = (ps.get ⟨i, h⟩).evaluation
    ∧ ((reportInput ps).get ⟨i, h2⟩).isOn = (ps.get ⟨i, h⟩).isOn := by
  refine ⟨by simp [reportInput], ?_, ?_, ?_, ?_⟩ <;>
    simp [reportInput, List.get_eq_getElem, List.getElem_map]

/-- Witness for C1 (amended) at a concrete one-record input. -/
theorem c1_amended_no_dedup_witness :
    0 < ([⟨practiceY, cwcA, PracticeEvaluationResult.notPracticing, true⟩]
        : List PracticeWithContext).length
    ∧ 0 < (reportInput
        [⟨practiceY, cwcA, PracticeEvaluationResult.notPracticing, true⟩]).length
    ∧ (reportInput
        [⟨practiceY, cwcA, PracticeEvaluationResult.notPracticing, true⟩]).length
      = ([⟨practiceY, cwcA, PracticeEvaluationResult.notPracticing, true⟩]
        : List PracticeWithContext).length :=
  ⟨Nat.zero_lt_one, Nat.zero_lt_one,
    (c1_amended_no_dedup
      [⟨practiceY, cwcA, PracticeEvaluationResult.notPracticing, true⟩] 0
      Nat.zero_lt_one Nat.zero_lt_one).1⟩

/-- C2 counterexample: with a dependency cycle among the practices
applicable to component `Bad`, the whole run's `detectPractices` rejects
with the cycle error; component `Good`, which on its own would yield a
one-record result set, gets nothing delivered — the fault aborts the whole
run, contradicting the claim. -/
theorem c2_counterexample :
    detectPractices catalogCyc [cwcBad, cwcGood] = Except.error ["P", "Q"]
    ∧ Except.map (fun st => st.records.map fun r => r.practice.metadata.id)
        (detectPracticesForComponent catalogCyc cwcGood) = Except.ok ["G"] :=
  ⟨rfl, rfl⟩

/-- C2 (amended): when the resolver reports a cycle for one component's
applicable practices, that component's evaluation fails with the
structured error naming the unorderable practice ids and produces no
records — but the error propagates: any run whose component list contains
that component rejects as a whole, delivering no other component's
results. -/
theorem c2_cycle_aborts_run (practices : List Practice)
    (cwc : ComponentWithContext) (e : List String)
    (h : sortPractices (filterPractices cwc practices).customApplicablePractices
      = Except.error e) :
    detectPracticesForComponent practices cwc = Except.error e
    ∧ ∀ pre post : List ComponentWithContext,
        ∃ e2, detectPractices practices (pre ++ cwc :: post) = Except.error e2 := by
  have hcomp : detectPracticesForComponent practices cwc = Except.error e := by
    simp [detectPracticesForComponent, h]
  refine ⟨hcomp, ?_⟩
  intro pre
  induction pre with
  | nil =>
    intro post
    refine ⟨e, ?_⟩
    simp [detectPractices, hcomp]
  | cons c pre ih =>
    intro post
    obtain ⟨e2, he2⟩ := ih post
    cases hc : detectPracticesForComponent practices c with
    | error e3 => exact ⟨e3, by simp [detectPractices, hc]⟩
    | ok st => exact ⟨e2, by simp [detectPractices, hc, he2]⟩

/-- Witness for C2 (amended) at the concrete cyclic catalog. -/
theorem c2_cycle_aborts_run_witness :
    sortPractices (filterPractices cwcBad catalogCyc).customApplicablePractices
      = Except.error ["P", "Q"]
    ∧ detectPracticesForComponent catalogCyc cwcBad = Except.error ["P", "Q"]
    ∧ ∃ e2, detectPractices catalogCyc ([] ++ cwcBad :: [cwcGood]) = Except.error e2 :=
  ⟨rfl, (c2_cycle_aborts_run catalogCyc cwcBad ["P", "Q"] rfl).1,
    (c2_cycle_aborts_run catalogCyc cwcBad ["P", "Q"] rfl).2 [] [cwcGood]⟩

/-- C8: each reported entry's impact is the override store's impact
override for the record's practice when one is defined and the practice's
declared impact otherwise, while component, practice metadata, evaluation
and enabled flag pass through unchanged. -/
theorem c8_override_impact (ps : List PracticeWithContext) (i : Nat)
    (h : i < ps.length) (h2 : i < (reportInput ps).length) :
    (((ps.get ⟨i, h⟩).componentContext.config
        (ps.get ⟨i, h⟩).practice.metadata.id).impact = none →
      ((reportInput ps).get ⟨i, h2⟩).impact = (ps.get ⟨i, h⟩).practice.metadata.impact)
    ∧ (∀ o, ((ps.get ⟨i, h⟩).componentContext.config
        (ps.get ⟨i, h⟩).practice.metadata.id).impact = some o →
      ((reportInput ps).get ⟨i, h2⟩).impact = o)
    ∧ ((reportInput ps).get ⟨i, h2⟩).component
        = (ps.get ⟨i, h⟩).componentContext.component
    ∧ ((reportInput ps).get ⟨i, h2⟩).practice = (ps.get ⟨i, h⟩).practice.metadata
    ∧ ((reportInput ps).get ⟨i, h2⟩).evaluation = (ps.get ⟨i, h⟩).evaluation
    ∧ ((reportInput ps).get ⟨i, h2⟩).isOn = (ps.get ⟨i, h⟩).isOn := by
  refine ⟨?_, ?_, ?_, ?_, ?_, ?_⟩
  · intro ho
    simp only [List.get_eq_getElem] at ho
    simp [reportInput, List.get_eq_getElem, List.getElem_map, ho]
  · intro o ho
    simp only [List.get_eq_getElem] at ho
    simp [reportInput, List.get_eq_getElem, List.getElem_map, ho]
  all_goals simp [reportInput, List.get_eq_getElem, List.getElem_map]

/-- Witness for C8 at a record whose component context overrides the
impact to `low` while the practice declares `high`. -/
theorem c8_override_impact_witness :
    0 < ([⟨practiceY, ⟨⟨"A"⟩, fun _ => ⟨true, some PracticeImpact.low⟩⟩,
          PracticeEvaluationResult.practicing, true⟩] : List PracticeWithContext).length
    ∧ ((⟨⟨"A"⟩, fun _ => ⟨true, some PracticeImpact.low⟩⟩
        : ComponentWithContext).config "Y").impact = some PracticeImpact.low
    ∧ ((reportInput [⟨practiceY, ⟨⟨"A"⟩, fun _ => ⟨true, some PracticeImpact.low⟩⟩,
          PracticeEvaluationResult.practicing, true⟩]).get
        ⟨0, Nat.zero_lt_one⟩).impact = PracticeImpact.low :=
  ⟨Nat.zero_lt_one, rfl,
    (c8_override_impact
      [⟨practiceY, ⟨⟨"A"⟩, fun _ => ⟨true, some PracticeImpact.low⟩⟩,
        PracticeEvaluationResult.practicing, true⟩] 0
      Nat.zero_lt_one Nat.zero_lt_one).2.1 PracticeImpact.low rfl⟩

/-! ## Decomposition of a component's outcome -/

/-- When sorting succeeded, the component outcome is the loop state over
the sorted order with the turned-off records appended. -/
theorem detect_component_decompose (practices : List Practice)
    (cwc : ComponentWithContext) (st : LoopState) (sorted : List Practice)
    (hSort : sortPractices (filterPractices cwc practices).customApplicablePractices
      = Except.ok sorted)
    (hOut : detectPracticesForComponent practices cwc = Except.ok st) :
    st.records = (evalLoop cwc sorted ⟨[], [], []⟩).records
        ++ (filterPractices cwc practices).practicesOff.map (offRecord cwc)
    ∧ st.invoked = (evalLoop cwc sorted ⟨[], [], []⟩).invoked
    ∧ st.failLog = (evalLoop cwc sorted ⟨[], [], []⟩).failLog := by
  simp only [detectPracticesForComponent, hSort] at hOut
  simp only [Except.ok.injEq] at hOut
  rw [← hOut]
  exact ⟨rfl, rfl, rfl⟩

/-- A successful component outcome presupposes a successful sort. -/
theorem detect_ok_sorted (practices : List Practice) (cwc : ComponentWithContext)
    (st : LoopState)
    (hOut : detectPracticesForComponent practices cwc = Except.ok st) :
    ∃ sorted, sortPractices (filterPractices cwc practices).customApplicablePractices
      = Except.ok sorted := by
  cases hs : sortPractices (filterPractices cwc practices).customApplicablePractices with
  | error e =>
    rw [detectPracticesForComponent, hs] at hOut
    exact absurd hOut (by simp)
  | ok sorted => exact ⟨sorted, rfl⟩

/-- Distinct catalog ids stay distinct through filtering and sorting. -/
theorem sorted_ids_nodup (practices : List Practice) (cwc : ComponentWithContext)
    (sorted : List Practice)
    (hNodup : (practices.map fun q => q.metadata.id).Nodup)
    (hSort : sortPractices (filterPractices cwc practices).customApplicablePractices
      = Except.ok sorted) :
    (sorted.map fun q => q.metadata.id).Nodup := by
  have hsub : (filterPractices cwc practices).customApplicablePractices.Sublist practices :=
    List.filter_sublist practices
  have hnd : ((filterPractices cwc practices).customApplicablePractices.map
      fun q => q.metadata.id).Nodup :=
    List.Nodup.sublist (hsub.map _) hNodup
  have hperm := sortPractices_perm _ _ hSort
  exact ((hperm.map _).nodup_iff).mp hnd

/-- Members of the sorted order are catalog members that are applicable
and enabled. -/
theorem sorted_mem_facts (practices : List Practice) (cwc : ComponentWithContext)
    (sorted : List Practice) (p : Practice)
    (hSort : sortPractices (filterPractices cwc practices).customApplicablePractices
      = Except.ok sorted)
    (hMem : p ∈ sorted) :
    p ∈ practices ∧ p.isApplicable cwc.component = true
      ∧ (cwc.config p.metadata.id).enabled = true := by
  have hperm := sortPractices_perm _ _ hSort
  have hm : p ∈ (filterPractices cwc practices).customApplicablePractices :=
    hperm.mem_iff.mpr hMem
  simp only [filterPractices, List.mem_filter, Bool.and_eq_true] at hm
  exact ⟨hm.1, hm.2.1, hm.2.2⟩

/-- Members of the turned-off record block: always `unknown`, `isOn =
false`, for a disabled catalog practice. -/
theorem off_mem_facts (practices : List Practice) (cwc : ComponentWithContext)
    (r : PracticeWithContext)
    (hr : r ∈ (filterPractices cwc practices).practicesOff.map (offRecord cwc)) :
    r.isOn = false ∧ r.evaluation = PracticeEvaluationResult.unknown
      ∧ (cwc.config r.practice.metadata.id).enabled = false
      ∧ r.practice ∈ practices := by
  obtain ⟨q, hq, hrq⟩ := List.mem_map.mp hr
  simp only [filterPractices, List.mem_filter, Bool.not_eq_true'] at hq
  rw [← hrq]
  exact ⟨rfl, rfl, hq.2, hq.1⟩

/-- Every record produced by the loop belongs to a practice of the
processed list. -/
theorem loop_mem_sorted (cwc : ComponentWithContext) (ps : List Practice)
    (r : PracticeWithContext)
    (hr : r ∈ (evalLoop cwc ps ⟨[], [], []⟩).records) : r.practice ∈ ps := by
  obtain ⟨new, fl, h1, -, -, h4, -, -⟩ := evalLoop_shape cwc ps ⟨[], [], []⟩
  rw [h1] at hr
  simp only [List.nil_append] at hr
  exact h4.subset (List.mem_map_of_mem _ hr)

/-- At most one record per practice id in a component's outcome, given
distinct catalog ids (shared core of several claims). -/
theorem records_countP_le_one (practices : List Practice)
    (cwc : ComponentWithContext) (st : LoopState) (pid : String)
    (hNodup : (practices.map fun q => q.metadata.id).Nodup)
    (hOut : detectPracticesForComponent practices cwc = Except.ok st) :
    (st.records.countP fun r => r.practice.metadata.id == pid) ≤ 1 := by
  obtain ⟨sorted, hSort⟩ := detect_ok_sorted practices cwc st hOut
  obtain ⟨hrec, -, -⟩ := detect_component_decompose practices cwc st sorted hSort hOut
  rw [hrec, List.countP_append]
  obtain ⟨new, fl, h1, -, -, h4, -, -⟩ := evalLoop_shape cwc sorted ⟨[], [], []⟩
  rw [h1]
  simp only [List.nil_append]
  have hA : (new.countP fun r => r.practice.metadata.id == pid)
      = ((new.map fun r => r.practice).countP fun q => q.metadata.id == pid) := by
    rw [List.countP_map]
    rfl
  have hAle : (new.countP fun r => r.practice.metadata.id == pid)
      ≤ (sorted.countP fun q => q.metadata.id == pid) := by
    rw [hA]
    exact h4.countP_le _
  have hsortedEq : (sorted.countP fun q => q.metadata.id == pid)
      = ((filterPractices cwc practices).customApplicablePractices.countP
        fun q => q.metadata.id == pid) :=
    ((sortPractices_perm _ _ hSort).countP_eq _).symm
  have hB : (((filterPractices cwc practices).practicesOff.map
      (offRecord cwc)).countP fun r => r.practice.metadata.id == pid)
      = ((filterPractices cwc practices).practicesOff.countP
        fun q => q.metadata.id == pid) := by
    rw [List.countP_map]
    rfl
  rw [hB]
  simp only [filterPractices, List.countP_filter]
  cases hEn : (cwc.config pid).enabled with
  | true =>
    have hBzero : (practices.countP fun q =>
        (q.metadata.id == pid) && !(cwc.config q.metadata.id).enabled) = 0 := by
      rw [List.countP_eq_zero]
      intro q hq
      simp only [Bool.and_eq_true, Bool.not_eq_true', not_and]
      intro hid
      have hid2 : q.metadata.id = pid := by simpa using hid
      rw [hid2, hEn]
      simp
    rw [hBzero]
    have hle2 : (sorted.countP fun q => q.metadata.id == pid)
        ≤ (practices.countP fun q => q.metadata.id == pid) := by
      rw [hsortedEq]
      simp only [filterPractices, List.countP_filter]
      exact List.countP_mono_left fun q hq h => (Bool.and_eq_true ..).mp h |>.1
    have := countP_id_le_one practices pid hNodup
    omega
  | false =>
    have hAzero : (sorted.countP fun q => q.metadata.id == pid) = 0 := by
      rw [List.countP_eq_zero]
      intro q hq
      have := (sorted_mem_facts practices cwc sorted q hSort hq).2.2
      intro hid
      have hid2 : q.metadata.id = pid := by simpa using hid
      rw [hid2, hEn] at this
      exact Bool.false_ne_true this
    have hBle : (practices.countP fun q =>
        (q.metadata.id == pid) && !(cwc.config q.metadata.id).enabled)
        ≤ (practices.countP fun q => q.metadata.id == pid) :=
      List.countP_mono_left fun q hq h => (Bool.and_eq_true ..).mp h |>.1
    have := countP_id_le_one practices pid hNodup
    omega

/-- With distinct ids and a member practice, exactly one catalog entry
carries that practice's id. -/
theorem countP_id_eq_one (practices : List Practice) (p : Practice)
    (hNodup : (practices.map fun q => q.metadata.id).Nodup)
    (hMem : p ∈ practices) :
    (practices.countP fun q => q.metadata.id == p.metadata.id) = 1 := by
  have hle := countP_id_le_one practices p.metadata.id hNodup
  have hpos : 0 < practices.countP fun q => q.metadata.id == p.metadata.id :=
    List.countP_pos_iff.mpr ⟨p, hMem, by simp⟩
  omega

/-- C6: at most one Evaluation Record exists per practice id in one
component's outcome (hence per (practice, component) pair in a run):
a practice never appears both among evaluated and toggled-off records nor
twice in either. -/
theorem c6_single_record (practices : List Practice) (cwc : ComponentWithContext)
    (st : LoopState) (pid : String)
    (hNodup : (practices.map fun q => q.metadata.id).Nodup)
    (hOut : detectPracticesForComponent practices cwc = Except.ok st) :
    (st.records.countP fun r => r.practice.metadata.id == pid) ≤ 1 :=
  records_countP_le_one practices cwc st pid hNodup hOut

/-- Witness for C6 on the concrete two-practice catalog. -/
theorem c6_single_record_witness :
    ((catalogTS.map fun q => q.metadata.id).Nodup)
    ∧ detectPracticesForComponent catalogTS cwcA = Except.ok stTS
    ∧ (stTS.records.countP fun r => r.practice.metadata.id == "T") ≤ 1 :=
  ⟨by decide, rfl, c6_single_record catalogTS cwcA stTS "T" (by decide) rfl⟩

/-- C5: a practice disabled via override yields exactly one record for its
id, every record bearing its id is `unknown` with `isOn = false`, and its
`evaluate` is never invoked — regardless of applicability or dependency
constraints. -/
theorem c5_toggled_off (practices : List Practice) (cwc : ComponentWithContext)
    (p : Practice) (st : LoopState)
    (hNodup : (practices.map fun q => q.metadata.id).Nodup)
    (hMem : p ∈ practices)
    (hOff : (cwc.config p.metadata.id).enabled = false)
    (hOut : detectPracticesForComponent practices cwc = Except.ok st) :
    (st.records.countP fun r => r.practice.metadata.id == p.metadata.id) = 1
    ∧ (∀ r ∈ st.records, r.practice.metadata.id = p.metadata.id →
        r.evaluation = PracticeEvaluationResult.unknown ∧ r.isOn = false)
    ∧ p.metadata.id ∉ st.invoked := by
  obtain ⟨sorted, hSort⟩ := detect_ok_sorted practices cwc st hOut
  obtain ⟨hrec, hinv, -⟩ := detect_component_decompose practices cwc st sorted hSort hOut
  obtain ⟨new, fl, h1, h2, -, h4, -, -⟩ := evalLoop_shape cwc sorted ⟨[], [], []⟩
  have hLoopId : ∀ r ∈ new, r.practice.metadata.id ≠ p.metadata.id := by
    intro r hr hid
    have hmem : r.practice ∈ sorted := h4.subset (List.mem_map_of_mem _ hr)
    have hEn := (sorted_mem_facts practices cwc sorted r.practice hSort hmem).2.2
    rw [hid, hOff] at hEn
    exact Bool.false_ne_true hEn
  refine ⟨?_, ?_, ?_⟩
  · rw [hrec, List.countP_append, h1]
    simp only [List.nil_append]
    have hAzero : (new.countP fun r => r.practice.metadata.id == p.metadata.id) = 0 := by
      rw [List.countP_eq_zero]
      intro r hr hid
      exact hLoopId r hr (by simpa using hid)
    have hmap : (((filterPractices cwc practices).practicesOff.map
        (offRecord cwc)).countP fun r => r.practice.metadata.id == p.metadata.id)
        = ((filterPractices cwc practices).practicesOff.countP
          fun q => q.metadata.id == p.metadata.id) := by
      rw [List.countP_map]
      rfl
    have hBone : (((filterPractices cwc practices).practicesOff.map
        (offRecord cwc)).countP fun r => r.practice.metadata.id == p.metadata.id) = 1 := by
      rw [hmap]
      simp only [filterPractices, List.countP_filter]
      have hle1 : (practices.countP fun q =>
          (q.metadata.id == p.metadata.id) && !(cwc.config q.metadata.id).enabled)
          ≤ (practices.countP fun q => q.metadata.id == p.metadata.id) :=
        List.countP_mono_left fun q hq h => (Bool.and_eq_true ..).mp h |>.1
      have hle2 : (practices.countP fun q => q.metadata.id == p.metadata.id)
          ≤ (practices.countP fun q =>
          (q.metadata.id == p.metadata.id) && !(cwc.config q.metadata.id).enabled) := by
        apply List.countP_mono_left
        intro q hq hid
        have hid2 : q.metadata.id = p.metadata.id := by simpa using hid
        rw [Bool.and_eq_true, hid2, hOff]
        exact ⟨by simp, rfl⟩
      have := countP_id_eq_one practices p hNodup hMem
      omega
    omega
  · intro r hr hid
    rw [hrec] at hr
    rcases List.mem_append.mp hr with hrA | hrB
    · rw [h1] at hrA
      simp only [List.nil_append] at hrA
      exact absurd hid (hLoopId r hrA)
    · have hf := off_mem_facts practices cwc r hrB
      exact ⟨hf.2.1, hf.1⟩
  · rw [hinv, h2]
    simp only [List.nil_append]
    intro hmem
    obtain ⟨r, hr, hid⟩ := List.mem_map.mp hmem
    exact hLoopId r hr hid

/-- Witness for C5: practice `D` is disabled, inapplicable and has an
unmet dependency, yet gets exactly one `unknown`/off record and is never
invoked. -/
theorem c5_toggled_off_witness :
    ((catalogDG.map fun q => q.metadata.id).Nodup)
    ∧ practiceD ∈ catalogDG
    ∧ (cwcOffD.config practiceD.metadata.id).enabled = false
    ∧ detectPracticesForComponent catalogDG cwcOffD = Except.ok stDG
    ∧ ((stDG.records.countP fun r => r.practice.metadata.id == practiceD.metadata.id) = 1
      ∧ (∀ r ∈ stDG.records, r.practice.metadata.id = practiceD.metadata.id →
          r.evaluation = PracticeEvaluationResult.unknown ∧ r.isOn = false)
      ∧ practiceD.metadata.id ∉ stDG.invoked) :=
  ⟨by decide, List.mem_cons_self _ _, rfl, rfl,
    c5_toggled_off catalogDG cwcOffD practiceD stDG (by decide)
      (List.mem_cons_self _ _) rfl rfl⟩

/-- C3: a practice of the resolved order whose fulfillment check fails
against the records produced before it is skipped entirely: its id is
never invoked and no record bearing its id appears in the component's
outcome. -/
theorem c3_unfulfilled_skipped (practices : List Practice)
    (cwc : ComponentWithContext) (l1 l2 : List Practice) (p : Practice)
    (st : LoopState)
    (hNodup : (practices.map fun q => q.metadata.id).Nodup)
    (hSort : sortPractices (filterPractices cwc practices).customApplicablePractices
      = Except.ok (l1 ++ p :: l2))
    (hNotFul : isFulfilled p (evalLoop cwc l1 ⟨[], [], []⟩).records = false)
    (hOut : detectPracticesForComponent practices cwc = Except.ok st) :
    p.metadata.id ∉ st.invoked
    ∧ ∀ r ∈ st.records, r.practice.metadata.id ≠ p.metadata.id := by
  obtain ⟨hrec, hinv, -⟩ :=
    detect_component_decompose practices cwc st (l1 ++ p :: l2) hSort hOut
  have hndS := sorted_ids_nodup practices cwc (l1 ++ p :: l2) hNodup hSort
  have hp1 : p.metadata.id ∉
      (l1.map fun q => q.metadata.id) ++ (l2.map fun q => q.metadata.id) := by
    rw [List.map_append, List.map_cons] at hndS
    have := List.nodup_middle.mp hndS
    exact (List.nodup_cons.mp this).1
  have hLoopEq : evalLoop cwc (l1 ++ p :: l2) ⟨[], [], []⟩
      = evalLoop cwc l2 (evalLoop cwc l1 ⟨[], [], []⟩) := by
    rw [evalLoop_append, evalLoop_cons, evalStep_skip _ _ _ hNotFul]
  obtain ⟨new1, fl1, g1, g2, -, g4, -, -⟩ := evalLoop_shape cwc l1 ⟨[], [], []⟩
  obtain ⟨new2, fl2, k1, k2, -, k4, -, -⟩ :=
    evalLoop_shape cwc l2 (evalLoop cwc l1 ⟨[], [], []⟩)
  have hIds : ∀ r ∈ (evalLoop cwc (l1 ++ p :: l2) ⟨[], [], []⟩).records,
      r.practice.metadata.id ≠ p.metadata.id := by
    intro r hr hid
    rw [hLoopEq, k1, g1] at hr
    simp only [List.nil_append] at hr
    apply hp1
    rw [← hid]
    rcases List.mem_append.mp hr with h | h
    · exact List.mem_append_left _
        (List.mem_map_of_mem _ (g4.subset (List.mem_map_of_mem _ h)))
    · exact List.mem_append_right _
        (List.mem_map_of_mem _ (k4.subset (List.mem_map_of_mem _ h)))
  refine ⟨?_, ?_⟩
  · rw [hinv, hLoopEq, k2, g2]
    simp only [List.nil_append]
    intro hmem
    apply hp1
    rcases List.mem_append.mp hmem with h | h
    · obtain ⟨r, hr, hid⟩ := List.mem_map.mp h
      rw [← hid]
      exact List.mem_append_left _
        (List.mem_map_of_mem _ (g4.subset (List.mem_map_of_mem _ hr)))
    · obtain ⟨r, hr, hid⟩ := List.mem_map.mp h
      rw [← hid]
      exact List.mem_append_right _
        (List.mem_map_of_mem _ (k4.subset (List.mem_map_of_mem _ hr)))
  · intro r hr
    rw [hrec] at hr
    rcases List.mem_append.mp hr with h | h
    · exact hIds r h
    · have hf := off_mem_facts practices cwc r h
      have hpEn := (sorted_mem_facts practices cwc (l1 ++ p :: l2) p hSort
        (by simp)).2.2
      intro hid
      rw [hid] at hf
      rw [hf.2.2.1] at hpEn
      exact Bool.false_ne_true hpEn

/-- Witness for C3: Scenario A — `L` evaluates `notPracticing`, so `E`
(requiring `L` practicing) is skipped with no record and no invocation. -/
theorem c3_unfulfilled_skipped_witness :
    ((catalogLE.map fun q => q.metadata.id).Nodup)
    ∧ sortPractices (filterPractices cwcA catalogLE).customApplicablePractices
        = Except.ok ([practiceL] ++ practiceE :: [])
    ∧ isFulfilled practiceE (evalLoop cwcA [practiceL] ⟨[], [], []⟩).records = false
    ∧ detectPracticesForComponent catalogLE cwcA = Except.ok stLE
    ∧ (practiceE.metadata.id ∉ stLE.invoked
      ∧ ∀ r ∈ stLE.records, r.practice.metadata.id ≠ practiceE.metadata.id) :=
  ⟨by decide, rfl, rfl, rfl,
    c3_unfulfilled_skipped catalogLE cwcA [practiceL] [] practiceE stLE
      (by decide) rfl rfl rfl⟩

/-- C4: when a practice's `evaluate` throws, the loop records it as
`unknown` with `isOn = true`, logs its name, and keeps going: every later
practice of the resolved order whose own fulfillment check passes is still
invoked. -/
theorem c4_fault_isolation (practices : List Practice) (cwc : ComponentWithContext)
    (l1 l2 : List Practice) (p : Practice) (err : String) (st : LoopState)
    (hSort : sortPractices (filterPractices cwc practices).customApplicablePractices
      = Except.ok (l1 ++ p :: l2))
    (hThrow : p.evaluateOn cwc.component = Except.error err)
    (hFul : isFulfilled p (evalLoop cwc l1 ⟨[], [], []⟩).records = true)
    (hOut : detectPracticesForComponent practices cwc = Except.ok st) :
    (⟨p, cwc, PracticeEvaluationResult.unknown, true⟩ : PracticeWithContext) ∈ st.records
    ∧ p.metadata.name ∈ st.failLog
    ∧ ∀ (l2a : List Practice) (q : Practice) (l2b : List Practice),
        l2 = l2a ++ q :: l2b →
        isFulfilled q (evalLoop cwc (l1 ++ p :: l2a) ⟨[], [], []⟩).records = true →
        q.metadata.id ∈ st.invoked := by
  obtain ⟨hrec, hinv, hlog⟩ :=
    detect_component_decompose practices cwc st (l1 ++ p :: l2) hSort hOut
  have hStep := evalStep_throw cwc (evalLoop cwc l1 ⟨[], [], []⟩) p err hFul hThrow
  have hLoopEq : evalLoop cwc (l1 ++ p :: l2) ⟨[], [], []⟩
      = evalLoop cwc l2 (evalStep cwc (evalLoop cwc l1 ⟨[], [], []⟩) p) := by
    rw [evalLoop_append, evalLoop_cons]
  obtain ⟨new2, fl2, k1, k2, k3, -, -, -⟩ :=
    evalLoop_shape cwc l2 (evalStep cwc (evalLoop cwc l1 ⟨[], [], []⟩) p)
  refine ⟨?_, ?_, ?_⟩
  · rw [hrec, hLoopEq, k1, hStep]
    simp
  · rw [hlog, hLoopEq, k3, hStep]
    simp
  · intro l2a q l2b hsplit hFulQ
    have hassoc : l1 ++ p :: l2 = (l1 ++ p :: l2a) ++ q :: l2b := by
      rw [hsplit]
      simp
    have hstepInv : (evalStep cwc (evalLoop cwc (l1 ++ p :: l2a) ⟨[], [], []⟩) q).invoked
        = (evalLoop cwc (l1 ++ p :: l2a) ⟨[], [], []⟩).invoked ++ [q.metadata.id] := by
      cases hq : q.evaluateOn cwc.component with
      | ok r => rw [evalStep_ok cwc _ q r hFulQ hq]
      | error e => rw [evalStep_throw cwc _ q e hFulQ hq]
    obtain ⟨new3, fl3, -, m2, -, -, -, -⟩ :=
      evalLoop_shape cwc l2b (evalStep cwc (evalLoop cwc (l1 ++ p :: l2a) ⟨[], [], []⟩) q)
    rw [hinv, hassoc, evalLoop_append, evalLoop_cons, m2, hstepInv]
    simp

/-- Witness for C4: `T` throws yet yields an `unknown` record and a log
entry, and the subsequent fulfilled practice `S` is still invoked. -/
theorem c4_fault_isolation_witness :
    sortPractices (filterPractices cwcA catalogTS).customApplicablePractices
      = Except.ok ([] ++ practiceT :: [practiceS])
    ∧ practiceT.evaluateOn cwcA.component = Except.error "boom"
    ∧ isFulfilled practiceT (evalLoop cwcA [] ⟨[], [], []⟩).records = true
    ∧ detectPracticesForComponent catalogTS cwcA = Except.ok stTS
    ∧ ((⟨practiceT, cwcA, PracticeEvaluationResult.unknown, true⟩
        : PracticeWithContext) ∈ stTS.records
      ∧ practiceT.metadata.name ∈ stTS.failLog
      ∧ practiceS.metadata.id ∈ stTS.invoked) :=
  have h := c4_fault_isolation catalogTS cwcA [] [practiceS] practiceT "boom" stTS
    rfl rfl rfl rfl
  ⟨rfl, rfl, rfl, rfl, h.1, h.2.1,
    h.2.2 [] practiceS [] rfl (by decide)⟩

/-- C7 counterexample: practice `DP` references `DQ`; with both toggled
off, the outcome holds a record for `DQ` appended strictly after the
record for `DP`, contradicting the claimed ordering. -/
theorem c7_counterexample :
    Except.map (fun st => st.records.map fun r => (r.practice.metadata.id, r.isOn))
        (detectPracticesForComponent catalogDep cwcAllOff)
      = Except.ok [("DP", false), ("DQ", false)]
    ∧ "DQ" ∈ practiceDepP.deps
    ∧ practiceDepP.metadata.id = "DP" ∧ practiceDepQ.metadata.id = "DQ" :=
  ⟨rfl, by decide, rfl, rfl⟩

/-- C7 (amended): if a record's practice references another record's
practice id and at least one of the two records was produced by
evaluation (`isOn = true`), the referenced record sits strictly earlier in
the component's result list.  (Two toggled-off records follow catalog
order with no dependency ordering.) -/
theorem c7_dependency_order (practices : List Practice)
    (cwc : ComponentWithContext) (st : LoopState) (i j : Nat)
    (hNodup : (practices.map fun q => q.metadata.id).Nodup)
    (hOut : detectPracticesForComponent practices cwc = Except.ok st)
    (hi : i < st.records.length) (hj : j < st.records.length)
    (hRef : (st.records.get ⟨i, hi⟩).practice.metadata.id
      ∈ (st.records.get ⟨j, hj⟩).practice.deps)
    (hOn : (st.records.get ⟨i, hi⟩).isOn = true
      ∨ (st.records.get ⟨j, hj⟩).isOn = true) :
    i < j := by
  obtain ⟨sorted, hSort⟩ := detect_ok_sorted practices cwc st hOut
  obtain ⟨hrec, -, -⟩ := detect_component_decompose practices cwc st sorted hSort hOut
  obtain ⟨new, fl, h1, -, -, -, h5, h6⟩ := evalLoop_shape cwc sorted ⟨[], [], []⟩
  simp only [List.nil_append] at h1
  rw [h1] at hrec
  have hBoff : ∀ r ∈ (filterPractices cwc practices).practicesOff.map (offRecord cwc),
      r.isOn = false := fun r hr => (off_mem_facts practices cwc r hr).1
  have hlen : st.records.length
      = new.length + ((filterPractices cwc practices).practicesOff.map
        (offRecord cwc)).length := by
    rw [hrec, List.length_append]
  by_cases hjlt : j < new.length
  · -- the referencing record was produced by the loop: use its
    -- fulfillment check and per-id uniqueness to place the referenced
    -- record strictly earlier
    have hgetj : st.records.get ⟨j, hj⟩ = new.get ⟨j, hjlt⟩ := by
      simp only [List.get_eq_getElem, hrec]
      exact List.getElem_append_left hjlt
    have hsplitNew : new = new.take j ++ new.get ⟨j, hjlt⟩ :: new.drop (j + 1) := by
      conv_lhs => rw [← List.take_append_drop j new]
      congr 1
      rw [List.get_eq_getElem]
      exact List.drop_eq_getElem_cons hjlt
    have hFulJ : isFulfilled (new.get ⟨j, hjlt⟩).practice (new.take j) = true := by
      have := h6 (new.take j) (new.get ⟨j, hjlt⟩) (new.drop (j + 1)) hsplitNew
      simp only [List.nil_append] at this
      exact this
    rw [hgetj] at hRef
    rw [isFulfilled, Bool.and_eq_true] at hFulJ
    have hAny : ∃ r ∈ new.take j,
        (r.practice.metadata.id == (st.records.get ⟨i, hi⟩).practice.metadata.id)
          = true := by
      rcases List.mem_append.mp hRef with hmem | hmem
      · have := (List.all_eq_true.mp hFulJ.1) _ hmem
        obtain ⟨r, hr, hrP⟩ := List.any_eq_true.mp this
        exact ⟨r, hr, ((Bool.and_eq_true ..).mp hrP).1⟩
      · have := (List.all_eq_true.mp hFulJ.2) _ hmem
        obtain ⟨r, hr, hrP⟩ := List.any_eq_true.mp this
        exact ⟨r, hr, ((Bool.and_eq_true ..).mp hrP).1⟩
    obtain ⟨r, hrTake, hrId⟩ := hAny
    obtain ⟨⟨k, hk⟩, hkr⟩ := List.mem_iff_get.mp hrTake
    have hkj : k < j := by
      have := hk
      simp only [List.length_take] at this
      omega
    have hknew : k < new.length := by
      have := hk
      simp only [List.length_take] at this
      omega
    have hrk : new.get ⟨k, hknew⟩ = r := by
      have h1q : (new.take j)[k]? = new[k]? := List.getElem?_take_of_lt hkj
      rw [List.getElem?_eq_getElem hk, List.getElem?_eq_getElem hknew] at h1q
      have : (new.take j).get ⟨k, hk⟩ = new.get ⟨k, hknew⟩ := by
        simp only [List.get_eq_getElem]
        exact (Option.some.injEq ..).mp h1q
      rw [← this]
      exact hkr
    have hkst : k < st.records.length := by omega
    have hgetk : st.records.get ⟨k, hkst⟩ = r := by
      simp only [List.get_eq_getElem, hrec]
      rw [List.getElem_append_left hknew]
      simpa [List.get_eq_getElem] using hrk
    have hcount := records_countP_le_one practices cwc st
      (st.records.get ⟨i, hi⟩).practice.metadata.id hNodup hOut
    have hPk : ((st.records.get ⟨k, hkst⟩).practice.metadata.id
        == (st.records.get ⟨i, hi⟩).practice.metadata.id) = true := by
      rw [hgetk]
      exact hrId
    have hPi : ((st.records.get ⟨i, hi⟩).practice.metadata.id
        == (st.records.get ⟨i, hi⟩).practice.metadata.id) = true := by simp
    have hik : k = i :=
      countP_le_one_pos st.records k i hkst hi hcount hPk hPi
    omega
  · -- the referencing record is a toggled-off record, so the referenced
    -- one was evaluated and the whole evaluated block precedes the off
    -- block
    have hjB : (st.records.get ⟨j, hj⟩).isOn = false := by
      simp only [List.get_eq_getElem, hrec]
      rw [List.getElem_append_right (by omega)]
      exact hBoff _ (List.getElem_mem _)
    have hiOn : (st.records.get ⟨i, hi⟩).isOn = true := by
      rcases hOn with h | h
      · exact h
      · rw [hjB] at h
        exact absurd h (by simp)
    have hilt : i < new.length := by
      by_contra hige
      have : (st.records.get ⟨i, hi⟩).isOn = false := by
        simp only [List.get_eq_getElem, hrec]
        rw [List.getElem_append_right (by omega)]
        exact hBoff _ (List.getElem_mem _)
      rw [hiOn] at this
      exact absurd this (by simp)
    omega

/-- Witness for C7 (amended): `E2` references `LP`; both evaluated, and
`LP`'s record indeed precedes `E2`'s (index 0 before index 1). -/
theorem c7_dependency_order_witness :
    ((catalogLPE.map fun q => q.metadata.id).Nodup)
    ∧ detectPracticesForComponent catalogLPE cwcA = Except.ok stLPE
    ∧ (stLPE.records.get ⟨0, Nat.zero_lt_succ _⟩).practice.metadata.id
        ∈ (stLPE.records.get ⟨1, Nat.lt_add_of_pos_left Nat.zero_lt_one⟩).practice.deps
    ∧ (0 : Nat) < 1 :=
  ⟨by decide, rfl, by decide,
    c7_dependency_order catalogLPE cwcA stLPE 0 1 (by decide) rfl
      (Nat.zero_lt_succ _) (Nat.lt_add_of_pos_left Nat.zero_lt_one)
      (by decide) (Or.inl rfl)⟩
